import Mathlib

set_option maxHeartbeats 1000000

/-! # A sliding-window maximum tracker

Shallow embedding of `MaxDetector` (src/src/lib.rs): a fixed-capacity
sliding-window maximum tracker built on a monotonic double-ended queue.
The deque is modelled as a `List`, head = front, last element = back.
Fallible steps (the `unwrap` calls and the `% buffer_size` that faults on
a zero divisor) are modelled in `Option`: `none` is a panic.
-/

/-- An entry of the candidate deque (`BufferElement` in the source): the
ring-buffer slot it occupies and its payload. -/
structure BufferElement (α : Type) where
  index : Nat
  value : α
  deriving DecidableEq, Repr

/-- The tracker (`MaxDetector` in the source): candidate deque
(head = front, last = back), window size and next ring-buffer slot. -/
structure MaxDetector (α : Type) where
  deque : List (BufferElement α)
  buffer_size : Nat
  next_index : Nat
  deriving DecidableEq, Repr

/-- `MaxDetector::new(buffer_size)`: stores the size unchecked, with an
empty deque and `next_index = 0`. -/
def MaxDetector.new (α : Type) (buffer_size : Nat) : MaxDetector α :=
  ⟨[], buffer_size, 0⟩

/-- The eviction loop of `next`:
`while value >= deque.front().unwrap().value { deque.pop_front(); }`.
`le a b` embeds the source's `a <= b`; `none` models the panic of
`front().unwrap()` on an empty deque. -/
def dropFront? {α : Type} (le : α → α → Bool) (v : α) :
    List (BufferElement α) → Option (List (BufferElement α))
  | [] => none
  | e :: es => if le e.value v then dropFront? le v es else some (e :: es)

/-- First step of `next`: pop the back element if its slot is the one
about to be reused (`deque.back().map(|it| it.index) == Some(next_index)`). -/
def expireBack {α : Type} (nextIndex : Nat) (d : List (BufferElement α)) :
    List (BufferElement α) :=
  if d.getLast?.map (·.index) = some nextIndex then d.dropLast else d

/-- Insertion step of `next`: empty deque gets the sole new element; a new
value `>=` the back clears the deque; otherwise the eviction loop runs and
the new element is pushed at the front.  `none` models the panic of
`deque.back().unwrap()` on an empty deque. -/
def insertNew? {α : Type} (le : α → α → Bool) (nextIndex : Nat) (v : α)
    (d : List (BufferElement α)) : Option (List (BufferElement α)) :=
  if d.isEmpty then some [⟨nextIndex, v⟩]
  else
    match d.getLast? with
    | none => none
    | some b =>
      if le b.value v then some [⟨nextIndex, v⟩]
      else (dropFront? le v d).map (⟨nextIndex, v⟩ :: ·)

/-- `MaxDetector::next(value)`: expiry, insertion, cyclic slot advance
(`(next_index + 1) % buffer_size`, which faults when `buffer_size = 0`),
and return of the back (maximum) value. -/
def MaxDetector.next? {α : Type} (le : α → α → Bool) (s : MaxDetector α) (v : α) :
    Option (α × MaxDetector α) :=
  (insertNew? le s.next_index v (expireBack s.next_index s.deque)).bind fun d1 =>
    if s.buffer_size = 0 then none
    else
      match d1.getLast? with
      | none => none
      | some b => some (b.value, ⟨d1, s.buffer_size, (s.next_index + 1) % s.buffer_size⟩)

/-- `MaxDetector::current()`: the value at the back of the deque, if any. -/
def MaxDetector.current {α : Type} (s : MaxDetector α) : Option α :=
  s.deque.getLast?.map (·.value)

/-- Feed a list of arrivals through `next`, collecting the returned maxima. -/
def runDetector? {α : Type} (le : α → α → Bool) (s : MaxDetector α) :
    List α → Option (List α × MaxDetector α)
  | [] => some ([], s)
  | v :: rest =>
    match s.next? le v with
    | none => none
    | some (r, s1) =>
      match runDetector? le s1 rest with
      | none => none
      | some (rs, s2) => some (r :: rs, s2)

/-- The order `<=` on `Nat`, as the boolean comparison the tracker consumes. -/
def leN : Nat → Nat → Bool := fun a b => decide (a ≤ b)

/-- Pairs compared by their first component only: a total preorder with
ties between distinct values, mirroring the source's test order on strings
by length. -/
def leP : Nat × Nat → Nat × Nat → Bool := fun a b => decide (a.1 ≤ b.1)

/-- The structural invariant after `n` arrivals: the deque's slot column is
the image mod `N` of a strictly decreasing list of arrival positions, all
inside the window `[n - N, n)`. -/
def goodA {α : Type} (N n : Nat) (s : MaxDetector α) : Prop :=
  s.buffer_size = N ∧ s.next_index = n % N ∧
  ∃ ps : List Nat, ps.Pairwise (· > ·) ∧ (∀ p ∈ ps, n - N ≤ p ∧ p < n) ∧
    s.deque.map (·.index) = ps.map (· % N)

/-- The `p`-th arrival (`d` is an irrelevant default, only read off the end). -/
def arrv {α : Type} (d : α) (vs : List α) (p : Nat) : α := vs.getD p d

/-- Position `p` is a candidate after `n` arrivals with window `N`: it is in
the window and no later arrival is `>=` it. -/
def candB {α : Type} (le : α → α → Bool) (d : α) (vs : List α) (N n p : Nat) : Bool :=
  decide (n - N ≤ p) && decide (p < n) &&
    (List.range n).all fun q => decide (q ≤ p) || !(le (arrv d vs p) (arrv d vs q))

/-- All candidates after `n` arrivals, in increasing position order. -/
def candList {α : Type} (le : α → α → Bool) (d : α) (vs : List α) (N n : Nat) :
    List Nat :=
  (List.range n).filter (candB le d vs N n)

/-- The deque element recording arrival `p`. -/
def elmOf {α : Type} (d : α) (vs : List α) (N p : Nat) : BufferElement α :=
  ⟨p % N, arrv d vs p⟩

/-- The deque contents after `n` arrivals: candidates from front (newest)
to back (oldest). -/
def specDeque {α : Type} (le : α → α → Bool) (d : α) (vs : List α) (N n : Nat) :
    List (BufferElement α) :=
  ((candList le d vs N n).reverse).map (elmOf d vs N)

/-- The whole tracker state after `n` arrivals. -/
def specState {α : Type} (le : α → α → Bool) (d : α) (vs : List α) (N n : Nat) :
    MaxDetector α :=
  ⟨specDeque le d vs N n, N, n % N⟩

/-- The values returned by the first `n` calls to `next`. -/
def specOuts {α : Type} (le : α → α → Bool) (d : α) (vs : List α) (N n : Nat) :
    List α :=
  (List.range n).map fun k => arrv d vs ((candList le d vs N (k + 1)).headD 0)

/-- The last `min (k + 1) N` of the first `k + 1` arrivals: the window in
force just after the `k`-th call to `next` (0-based). -/
def windowAt {α : Type} (vs : List α) (N k : Nat) : List α :=
  (vs.take (k + 1)).drop (k + 1 - N)

/-! ## Basic facts about a single step -/

theorem dropFront?_spec {α : Type} (le : α → α → Bool) (v : α) :
    ∀ (l : List (BufferElement α)) (b : BufferElement α),
      l.getLast? = some b → le b.value v = false →
      ∃ l', dropFront? le v l = some l' ∧ l' <:+ l ∧ l'.getLast? = some b := by
  intro l
  induction l with
  | nil => intro b hb; simp at hb
  | cons e es ih =>
    intro b hb hbv
    by_cases hev : le e.value v = true
    · cases es with
      | nil =>
        simp at hb
        rw [hb] at hev
        rw [hev] at hbv
        simp at hbv
      | cons e2 es2 =>
        rw [List.getLast?_cons_cons] at hb
        obtain ⟨l', hl', hsuf, hlast⟩ := ih b hb hbv
        exact ⟨l', by simpa [dropFront?, hev] using hl',
          hsuf.trans (List.suffix_cons e _), hlast⟩
    · rw [Bool.not_eq_true] at hev
      exact ⟨e :: es, by simp [dropFront?, hev], List.suffix_refl _, hb⟩

theorem insertNew?_spec {α : Type} (le : α → α → Bool) (ni : Nat) (v : α)
    (d : List (BufferElement α)) :
    ∃ d1, insertNew? le ni v d = some d1 ∧ ∃ b1, d1.getLast? = some b1 := by
  by_cases hd : d.isEmpty
  · exact ⟨[⟨ni, v⟩], by simp [insertNew?, hd], ⟨ni, v⟩, rfl⟩
  · have hne : d ≠ [] := by
      intro h; rw [h] at hd; simp at hd
    obtain ⟨b, hb⟩ := Option.isSome_iff_exists.mp (List.getLast?_isSome.mpr hne)
    by_cases hbv : le b.value v = true
    · exact ⟨[⟨ni, v⟩], by simp [insertNew?, hd, hb, hbv], ⟨ni, v⟩, rfl⟩
    · rw [Bool.not_eq_true] at hbv
      obtain ⟨l', hl', _, hlast⟩ := dropFront?_spec le v d b hb hbv
      refine ⟨⟨ni, v⟩ :: l', by simp [insertNew?, hd, hb, hbv, hl'], b, ?_⟩
      have : l' ≠ [] := by
        intro h; rw [h] at hlast; simp at hlast
      cases l' with
      | nil => simp at this
      | cons x xs => rw [List.getLast?_cons_cons]; exact hlast

/-- The three ways an insertion step can succeed. -/
theorem insertNew?_eq_some_elim {α : Type} {le : α → α → Bool} {ni : Nat} {v : α}
    {d d1 : List (BufferElement α)} (h : insertNew? le ni v d = some d1) :
    (d = [] ∧ d1 = [⟨ni, v⟩]) ∨
    (∃ b0, d.getLast? = some b0 ∧ le b0.value v = true ∧ d1 = [⟨ni, v⟩]) ∨
    (∃ b0 l', d.getLast? = some b0 ∧ le b0.value v = false ∧
      dropFront? le v d = some l' ∧ d1 = ⟨ni, v⟩ :: l') := by
  unfold insertNew? at h
  split at h
  · left
    refine ⟨by simpa using (by assumption : d.isEmpty = true), by simpa using h.symm⟩
  · split at h
    · simp at h
    · rename_i b0 hb0
      split at h
      · right; left
        exact ⟨b0, hb0, by assumption, by simpa using h.symm⟩
      · right; right
        cases hdf : dropFront? le v d with
        | none => rw [hdf] at h; simp at h
        | some l' =>
          rw [hdf] at h
          simp at h
          exact ⟨b0, l', hb0, by simpa using (by assumption : ¬le b0.value v = true),
            rfl, h.symm⟩

/-- `next` never returns `none` when the window size is positive: every
internal `unwrap` is on a non-empty deque and the modulo divisor is non-zero. -/
theorem next?_isSome {α : Type} (le : α → α → Bool) (s : MaxDetector α) (v : α)
    (hbs : s.buffer_size ≠ 0) : (s.next? le v).isSome = true := by
  obtain ⟨d1, hins, b1, hb1⟩ :=
    insertNew?_spec le s.next_index v (expireBack s.next_index s.deque)
  simp [MaxDetector.next?, hins, hbs, hb1]

theorem next?_eq_none_of_bs_zero {α : Type} (le : α → α → Bool) (s : MaxDetector α)
    (v : α) (hbs : s.buffer_size = 0) : s.next? le v = none := by
  unfold MaxDetector.next?
  cases insertNew? le s.next_index v (expireBack s.next_index s.deque) with
  | none => rfl
  | some d1 => simp [hbs]

/-- Everything `next` guarantees structurally about a successful step. -/
theorem next?_eq_some_elim {α : Type} {le : α → α → Bool} {s : MaxDetector α}
    {v : α} {r : α} {s' : MaxDetector α} (h : s.next? le v = some (r, s')) :
    ∃ d1 b, insertNew? le s.next_index v (expireBack s.next_index s.deque) = some d1 ∧
      d1.getLast? = some b ∧ r = b.value ∧
      s' = ⟨d1, s.buffer_size, (s.next_index + 1) % s.buffer_size⟩ ∧
      s.buffer_size ≠ 0 := by
  unfold MaxDetector.next? at h
  rw [Option.bind_eq_some] at h
  obtain ⟨d1, hd1, h⟩ := h
  by_cases hbs : s.buffer_size = 0
  · simp [hbs] at h
  · rw [if_neg hbs] at h
    cases hb : d1.getLast? with
    | none => rw [hb] at h; simp at h
    | some b =>
      rw [hb] at h
      simp at h
      exact ⟨d1, b, hd1, hb, h.1.symm, h.2.symm, hbs⟩

/-- A successful `next` leaves a non-empty deque whose back value is the
returned value; hence `current` agrees with what `next` just returned. -/
theorem next?_current_agree {α : Type} {le : α → α → Bool} {s : MaxDetector α}
    {v r : α} {s' : MaxDetector α} (h : s.next? le v = some (r, s')) :
    s'.current = some r := by
  obtain ⟨d1, b, _, hb, hr, hs', _⟩ := next?_eq_some_elim h
  rw [hs', MaxDetector.current]
  simp [hb, hr]

theorem next?_deque_ne_nil {α : Type} {le : α → α → Bool} {s : MaxDetector α}
    {v r : α} {s' : MaxDetector α} (h : s.next? le v = some (r, s')) :
    s'.deque ≠ [] := by
  obtain ⟨d1, b, _, hb, _, hs', _⟩ := next?_eq_some_elim h
  rw [hs']
  intro hnil
  simp at hnil
  rw [hnil] at hb
  simp at hb

theorem runDetector?_cons_elim {α : Type} {le : α → α → Bool} {s : MaxDetector α}
    {v : α} {rest : List α} {outs : List α} {s' : MaxDetector α}
    (h : runDetector? le s (v :: rest) = some (outs, s')) :
    ∃ r s1 rs, s.next? le v = some (r, s1) ∧
      runDetector? le s1 rest = some (rs, s') ∧ outs = r :: rs := by
  unfold runDetector? at h
  split at h
  · simp at h
  · rename_i r s1 hn
    split at h
    · simp at h
    · rename_i rs s2 hr
      simp at h
      exact ⟨r, s1, rs, hn, by rw [hr, h.2], h.1.symm⟩

/-- A run over at least one arrival ends in a state with a non-empty deque. -/
theorem runDetector?_deque_ne_nil {α : Type} {le : α → α → Bool} :
    ∀ {l : List α} {s : MaxDetector α} {outs : List α} {s' : MaxDetector α},
      l ≠ [] → runDetector? le s l = some (outs, s') → s'.deque ≠ [] := by
  intro l
  induction l with
  | nil => intro s outs s' hne; simp at hne
  | cons v rest ih =>
    intro s outs s' _ h
    obtain ⟨r, s1, rs, hn, hr, _⟩ := runDetector?_cons_elim h
    cases rest with
    | nil =>
      unfold runDetector? at hr
      simp at hr
      rw [← hr.2]
      exact next?_deque_ne_nil hn
    | cons w t => exact ih (by simp) hr

/-! ## Structural invariant: deque slots are the residues of a strictly
decreasing list of arrival positions inside the current window -/

theorem window_mod_inj {N n p q : Nat} (hp1 : n - N ≤ p) (hp2 : p < n)
    (hq1 : n - N ≤ q) (hq2 : q < n) (hmod : p % N = q % N) : p = q := by
  rcases Nat.le_total p q with hle | hle
  · have hdvd : N ∣ q - p := (Nat.modEq_iff_dvd' hle).mp hmod
    rcases Nat.eq_zero_or_pos (q - p) with h0 | h0
    · omega
    · have := Nat.le_of_dvd h0 hdvd
      omega
  · have hdvd : N ∣ p - q := (Nat.modEq_iff_dvd' hle).mp hmod.symm
    rcases Nat.eq_zero_or_pos (p - q) with h0 | h0
    · omega
    · have := Nat.le_of_dvd h0 hdvd
      omega

theorem window_expire_pos {N n p : Nat} (hp1 : n - N ≤ p) (hp2 : p < n)
    (hmod : p % N = n % N) : N ≤ n ∧ p = n - N := by
  have hdvd : N ∣ n - p := (Nat.modEq_iff_dvd' (Nat.le_of_lt hp2)).mp hmod
  have h1 : 0 < n - p := by omega
  have h2 : N ≤ n - p := Nat.le_of_dvd h1 hdvd
  omega

theorem decList_length_le :
    ∀ (ps : List Nat) (a b : Nat), ps.Pairwise (· > ·) →
      (∀ p ∈ ps, a ≤ p ∧ p < b) → ps.length ≤ b - a := by
  intro ps
  induction ps with
  | nil => simp
  | cons p t ih =>
    intro a b hpw hbnd
    rw [List.pairwise_cons] at hpw
    have ht : t.length ≤ p - a :=
      ih a p hpw.2 (fun q hq => ⟨(hbnd q (List.mem_cons_of_mem p hq)).1, hpw.1 q hq⟩)
    have hp := hbnd p (List.mem_cons_self p t)
    simp only [List.length_cons]
    omega


theorem suffix_map_eq_map {β γ δ : Type} {g : β → δ} {h : γ → δ}
    {l' d0 : List β} {ps1 : List γ} (hsuf : l' <:+ d0)
    (heq : d0.map g = ps1.map h) :
    ∃ ps2, ps2 <:+ ps1 ∧ l'.map g = ps2.map h := by
  obtain ⟨t, ht⟩ := hsuf
  have hlen : t.length + l'.length = ps1.length := by
    have := congrArg List.length ht
    simp at this
    have h2 := congrArg List.length heq
    simp at h2
    omega
  refine ⟨ps1.drop t.length, List.drop_suffix _ _, ?_⟩
  have hsplit : ps1.map h = (ps1.take t.length).map h ++ (ps1.drop t.length).map h := by
    rw [← List.map_append, List.take_append_drop]
  have happ : t.map g ++ l'.map g = (ps1.take t.length).map h ++ (ps1.drop t.length).map h := by
    rw [← List.map_append, ht, heq, ← hsplit]
  have hlt : (t.map g).length = ((ps1.take t.length).map h).length := by
    simp
    omega
  exact (List.append_inj happ (by simpa using hlt)).2

theorem goodA_step {α : Type} (le : α → α → Bool) {N n : Nat}
    {s s' : MaxDetector α} {v r : α} (hN : 1 ≤ N) (hA : goodA N n s)
    (h : s.next? le v = some (r, s')) : goodA N (n + 1) s' := by
  obtain ⟨hbs, hni, ps, hpw, hbnd, hmap⟩ := hA
  obtain ⟨d1, b, hins, hb1, hr, hs', hbs0⟩ := next?_eq_some_elim h
  -- the deque after the expiry step
  have hE : ∃ ps1 : List Nat, ps1.Pairwise (· > ·) ∧
      (∀ p ∈ ps1, (n + 1) - N ≤ p ∧ p < n) ∧
      (expireBack s.next_index s.deque).map (·.index) = ps1.map (· % N) := by
    have hglast : s.deque.getLast?.map (·.index) = ps.getLast?.map (· % N) := by
      rw [← List.getLast?_map, hmap, List.getLast?_map]
    by_cases hcheck : s.deque.getLast?.map (·.index) = some s.next_index
    · -- the back's slot is about to be reused: it is popped, and its
      -- position is exactly n - N
      rw [hcheck] at hglast
      cases hlast : ps.getLast? with
      | none => rw [hlast] at hglast; simp at hglast
      | some plast =>
        rw [hlast] at hglast
        simp at hglast
        have hmem := List.mem_of_getLast?_eq_some hlast
        have hpb := hbnd plast hmem
        have hplast : N ≤ n ∧ plast = n - N := by
          apply window_expire_pos hpb.1 hpb.2
          rw [← hglast, hni]
        refine ⟨ps.dropLast, hpw.sublist (List.dropLast_sublist ps), ?_, ?_⟩
        · intro p hp
          have hpm := hbnd p (List.mem_of_mem_dropLast hp)
          have hgt : p > plast := by
            have hne : ps ≠ [] := by
              intro hnil; rw [hnil] at hlast; simp at hlast
            have hsplit := List.dropLast_append_getLast? plast hlast
            rw [← hsplit] at hpw
            have := (List.pairwise_append.mp hpw).2.2
            exact this p hp plast (List.mem_singleton_self plast)
          omega
        · rw [expireBack, if_pos hcheck, List.map_dropLast, hmap, ← List.map_dropLast]
    · -- no element expires: no position in the deque is n - N
      refine ⟨ps, hpw, ?_, ?_⟩
      · intro p hp
        have hpm := hbnd p hp
        rcases Nat.lt_or_ge n N with hnN | hnN
        · omega
        · -- if p = n - N it would be the minimal position, hence the back,
          -- and the expiry check would have fired
          by_cases hpe : p = n - N
          · exfalso
            have hne : ps ≠ [] := by
              intro hnil; rw [hnil] at hp; simp at hp
            have hlsome := List.getLast?_isSome.mpr hne
            obtain ⟨plast, hlast⟩ := Option.isSome_iff_exists.mp hlsome
            have hple : p = plast := by
              have hsplit := List.dropLast_append_getLast? plast hlast
              have hp2 : p ∈ ps.dropLast ++ [plast] := by rw [hsplit]; exact hp
              rcases List.mem_append.mp hp2 with hin | hin
              · exfalso
                rw [← hsplit] at hpw
                have := (List.pairwise_append.mp hpw).2.2 p hin plast
                  (List.mem_singleton_self plast)
                have hpl := hbnd plast (List.mem_of_getLast?_eq_some hlast)
                omega
              · simpa using hin
            apply hcheck
            rw [hglast, hlast, hni]
            simp
            rw [← hple, hpe]
            conv_rhs => rw [← Nat.sub_add_cancel hnN]
            rw [Nat.add_mod_right]
          · omega
      · rw [expireBack, if_neg hcheck, hmap]
  obtain ⟨ps1, hpw1, hbnd1, hmap1⟩ := hE
  refine ⟨by rw [hs']; exact hbs, by rw [hs']; simp; rw [hni, hbs, Nat.mod_add_mod], ?_⟩
  have hdeq : s'.deque = d1 := by rw [hs']
  -- now analyse the insertion step
  rcases insertNew?_eq_some_elim hins with ⟨_, hd1⟩ | ⟨b0, _, _, hd1⟩ |
    ⟨b0, l', hgl, hb0, hdf, hd1⟩
  · refine ⟨[n], by simp, by intro p hp; simp at hp; omega, ?_⟩
    rw [hdeq, hd1, hni]
    simp
  · refine ⟨[n], by simp, by intro p hp; simp at hp; omega, ?_⟩
    rw [hdeq, hd1, hni]
    simp
  · obtain ⟨l'', hl'', hsuf, _⟩ := dropFront?_spec le v _ b0 hgl hb0
    rw [hdf] at hl''
    have hl'eq : l'' = l' := (by simpa using hl'' : l' = l'').symm
    rw [hl'eq] at hsuf
    obtain ⟨ps2, hsuf2, hmap2⟩ := suffix_map_eq_map hsuf hmap1
    refine ⟨n :: ps2, ?_, ?_, ?_⟩
    · rw [List.pairwise_cons]
      exact ⟨fun p hp => (hbnd1 p (hsuf2.subset hp)).2,
        hpw1.sublist hsuf2.sublist⟩
    · intro p hp
      rcases List.mem_cons.mp hp with hp | hp
      · omega
      · have := hbnd1 p (hsuf2.subset hp)
        omega
    · rw [hdeq, hd1, hni]
      simp [hmap2]

theorem goodA_run {α : Type} (le : α → α → Bool) {N : Nat} (hN : 1 ≤ N) :
    ∀ (l : List α) (n : Nat) (s : MaxDetector α) (outs : List α)
      (s' : MaxDetector α), goodA N n s → runDetector? le s l = some (outs, s') →
      goodA N (n + l.length) s' := by
  intro l
  induction l with
  | nil =>
    intro n s outs s' hA h
    unfold runDetector? at h
    simp at h
    rw [← h.2]
    simpa using hA
  | cons v rest ih =>
    intro n s outs s' hA h
    obtain ⟨r, s1, rs, hn, hrest, _⟩ := runDetector?_cons_elim h
    have h1 := goodA_step le hN hA hn
    have h2 := ih (n + 1) s1 rs s' h1 hrest
    simpa [Nat.add_comm, Nat.add_assoc, Nat.add_left_comm] using h2

theorem goodA_new {α : Type} (N : Nat) : goodA N 0 (MaxDetector.new α N) :=
  ⟨rfl, rfl, [], by simp, by simp, by simp [MaxDetector.new]⟩

/-- The structural invariant holds in every reachable state. -/
theorem goodA_reachable {α : Type} (le : α → α → Bool) {N : Nat} {vs outs : List α}
    {s : MaxDetector α} (hN : 1 ≤ N)
    (hrun : runDetector? le (MaxDetector.new α N) vs = some (outs, s)) :
    goodA N vs.length s := by
  have := goodA_run le hN vs 0 (MaxDetector.new α N) outs s (goodA_new N) hrun
  simpa using this

/-! ## The candidate characterisation of the deque

After `n` arrivals the deque holds exactly the window positions whose value
is strictly above every later window value (ties discarded in favour of the
newer arrival), in decreasing position order from front to back. -/


theorem candB_eq_true_iff {α : Type} {le : α → α → Bool} {d : α} {vs : List α}
    {N n p : Nat} :
    candB le d vs N n p = true ↔
      n - N ≤ p ∧ p < n ∧
        ∀ q, q < n → p < q → le (arrv d vs p) (arrv d vs q) = false := by
  unfold candB
  simp only [Bool.and_eq_true, decide_eq_true_eq, List.all_eq_true, List.mem_range,
    Bool.or_eq_true, Bool.not_eq_true']
  constructor
  · rintro ⟨⟨h1, h2⟩, h3⟩
    exact ⟨h1, h2, fun q hq hpq => ((h3 q hq).resolve_left (by omega))⟩
  · rintro ⟨h1, h2, h3⟩
    refine ⟨⟨h1, h2⟩, fun q hq => ?_⟩
    rcases le_or_lt q p with h | h
    · exact Or.inl h
    · exact Or.inr (h3 q hq h)

theorem candList_pairwise {α : Type} (le : α → α → Bool) (d : α) (vs : List α)
    (N n : Nat) : (candList le d vs N n).Pairwise (· < ·) :=
  List.Pairwise.sublist (List.filter_sublist _) (List.pairwise_lt_range n)

theorem mem_candList {α : Type} {le : α → α → Bool} {d : α} {vs : List α}
    {N n p : Nat} :
    p ∈ candList le d vs N n ↔ candB le d vs N n p = true := by
  unfold candList
  rw [List.mem_filter, List.mem_range]
  constructor
  · exact fun h => h.2
  · intro h
    exact ⟨(candB_eq_true_iff.mp h).2.1, h⟩

theorem candB_self {α : Type} (le : α → α → Bool) (d : α) (vs : List α)
    {N : Nat} (n : Nat) (hN : 1 ≤ N) : candB le d vs N (n + 1) n = true :=
  candB_eq_true_iff.mpr ⟨by omega, by omega, fun q hq hpq => by omega⟩

theorem candB_succ_of_lt {α : Type} {le : α → α → Bool} {d : α} {vs : List α}
    {N n p : Nat} (hp : p < n) :
    candB le d vs N (n + 1) p =
      ((decide (n + 1 - N ≤ p) && !(le (arrv d vs p) (arrv d vs n))) &&
        candB le d vs N n p) := by
  cases h : candB le d vs N (n + 1) p with
  | false =>
    symm
    rcases Bool.eq_false_or_eq_true ((decide (n + 1 - N ≤ p) &&
        !(le (arrv d vs p) (arrv d vs n))) && candB le d vs N n p) with hh | hh
    swap
    · exact hh
    · exfalso
      rw [Bool.and_eq_true, Bool.and_eq_true, decide_eq_true_eq,
        Bool.not_eq_true'] at hh
      obtain ⟨⟨hpos, hval⟩, hcand⟩ := hh
      obtain ⟨h1, h2, h3⟩ := candB_eq_true_iff.mp hcand
      have hc : candB le d vs N (n + 1) p = true := by
        apply candB_eq_true_iff.mpr
        refine ⟨hpos, by omega, fun q hq hpq => ?_⟩
        rcases Nat.lt_or_ge q n with hqn | hqn
        · exact h3 q hqn hpq
        · have hqe : q = n := by omega
          rw [hqe]
          exact hval
      rw [hc] at h
      simp at h
  | true =>
    symm
    obtain ⟨h1, h2, h3⟩ := candB_eq_true_iff.mp h
    have hval : le (arrv d vs p) (arrv d vs n) = false := h3 n (by omega) hp
    have hcand : candB le d vs N n p = true :=
      candB_eq_true_iff.mpr ⟨by omega, hp, fun q hq hpq => h3 q (by omega) hpq⟩
    rw [hcand, hval]
    simp [h1]

theorem candList_succ {α : Type} (le : α → α → Bool) (d : α) (vs : List α)
    {N : Nat} (n : Nat) (hN : 1 ≤ N) :
    candList le d vs N (n + 1) =
      (candList le d vs N n).filter
        (fun p => decide (n + 1 - N ≤ p) && !(le (arrv d vs p) (arrv d vs n)))
      ++ [n] := by
  unfold candList
  rw [List.range_succ, List.filter_append, List.filter_filter]
  congr 1
  · exact List.filter_congr fun p hp => candB_succ_of_lt (List.mem_range.mp hp)
  · simp [candB_self le d vs n hN]

theorem candList_succ_ne_nil {α : Type} (le : α → α → Bool) (d : α) (vs : List α)
    {N : Nat} (n : Nat) (hN : 1 ≤ N) : candList le d vs N (n + 1) ≠ [] := by
  rw [candList_succ le d vs n hN]
  simp

theorem arrv_mem {α : Type} (d : α) {vs : List α} {p : Nat} (hp : p < vs.length) :
    arrv d vs p ∈ vs := by
  unfold arrv
  rw [List.getD_eq_getElem vs d hp]
  exact List.getElem_mem hp

/-! ## Value facts about candidates (assuming the order is total and
transitive on the values actually pushed) -/

theorem cand_value_lt {α : Type} {le : α → α → Bool} {d : α} {vs : List α}
    {N n p p' : Nat}
    (htot : ∀ a ∈ vs, ∀ b ∈ vs, le a b = true ∨ le b a = true)
    (hn : n ≤ vs.length)
    (hp : candB le d vs N n p = true) (hp' : candB le d vs N n p' = true)
    (hlt : p < p') :
    le (arrv d vs p) (arrv d vs p') = false ∧
      le (arrv d vs p') (arrv d vs p) = true := by
  obtain ⟨_, hpn, hall⟩ := candB_eq_true_iff.mp hp
  obtain ⟨_, hp'n, _⟩ := candB_eq_true_iff.mp hp'
  have h1 : le (arrv d vs p) (arrv d vs p') = false := hall p' hp'n hlt
  have hm1 : arrv d vs p ∈ vs := arrv_mem d (by omega)
  have hm2 : arrv d vs p' ∈ vs := arrv_mem d (by omega)
  rcases htot _ hm1 _ hm2 with h | h
  · rw [h] at h1; simp at h1
  · exact ⟨h1, h⟩

theorem window_mem_le_cand {α : Type} {le : α → α → Bool} {d : α} {vs : List α}
    {N n : Nat}
    (htot : ∀ a ∈ vs, ∀ b ∈ vs, le a b = true ∨ le b a = true)
    (htrans : ∀ a ∈ vs, ∀ b ∈ vs, ∀ c ∈ vs,
      le a b = true → le b c = true → le a c = true)
    (hn : n ≤ vs.length) :
    ∀ (m q : Nat), n - q ≤ m → n - N ≤ q → q < n →
      ∃ p, candB le d vs N n p = true ∧ q ≤ p ∧
        le (arrv d vs q) (arrv d vs p) = true := by
  intro m
  induction m with
  | zero => intro q h1 h2 h3; omega
  | succ m ih =>
    intro q h1 h2 h3
    by_cases hq : candB le d vs N n q = true
    · refine ⟨q, hq, Nat.le_refl q, ?_⟩
      have hm : arrv d vs q ∈ vs := arrv_mem d (by omega : q < vs.length)
      rcases htot _ hm _ hm with h | h <;> exact h
    · have hex : ∃ r, r < n ∧ q < r ∧ le (arrv d vs q) (arrv d vs r) = true := by
        by_contra hno
        push_neg at hno
        apply hq
        apply candB_eq_true_iff.mpr
        refine ⟨h2, h3, fun r hr hqr => ?_⟩
        have := hno r hr hqr
        rcases Bool.eq_false_or_eq_true (le (arrv d vs q) (arrv d vs r)) with hh | hh
        · exact absurd hh this
        · exact hh
      obtain ⟨r, hr1, hr2, hr3⟩ := hex
      obtain ⟨p, hp, hrp, hle⟩ := ih r (by omega) (by omega) hr1
      have hpn := (candB_eq_true_iff.mp hp).2.1
      refine ⟨p, hp, by omega, ?_⟩
      exact htrans _ (arrv_mem d (by omega)) _ (arrv_mem d (by omega))
        _ (arrv_mem d (by omega)) hr3 hle

theorem head_mem_of_head?_eq_some {β : Type} {l : List β} {a : β}
    (h : l.head? = some a) : a ∈ l := by
  cases l with
  | nil => simp at h
  | cons x t =>
    simp at h
    rw [h]
    exact List.mem_cons_self a t

theorem candList_head_min {α : Type} {le : α → α → Bool} {d : α} {vs : List α}
    {N n p0 : Nat} (h0 : (candList le d vs N n).head? = some p0) :
    ∀ p ∈ candList le d vs N n, p0 ≤ p := by
  have hpw := candList_pairwise le d vs N n
  cases hl : candList le d vs N n with
  | nil => rw [hl] at h0; simp at h0
  | cons x t =>
    rw [hl] at h0
    simp at h0
    rw [hl] at hpw
    rw [List.pairwise_cons] at hpw
    intro p hp
    rcases List.mem_cons.mp hp with hp | hp
    · omega
    · have := hpw.1 p hp
      omega

/-- The back of the deque (the minimal candidate) dominates every window
position. -/
theorem cand_head_max {α : Type} {le : α → α → Bool} {d : α} {vs : List α}
    {N n p0 : Nat}
    (htot : ∀ a ∈ vs, ∀ b ∈ vs, le a b = true ∨ le b a = true)
    (htrans : ∀ a ∈ vs, ∀ b ∈ vs, ∀ c ∈ vs,
      le a b = true → le b c = true → le a c = true)
    (hn : n ≤ vs.length) (h0 : (candList le d vs N n).head? = some p0) :
    ∀ q, n - N ≤ q → q < n → le (arrv d vs q) (arrv d vs p0) = true := by
  intro q hq1 hq2
  obtain ⟨p, hp, hqp, hle⟩ :=
    window_mem_le_cand htot htrans hn n q (by omega) hq1 hq2
  have hp0c : candB le d vs N n p0 = true :=
    mem_candList.mp (head_mem_of_head?_eq_some h0)
  by_cases hpp : p = p0
  · rw [hpp] at hle; exact hle
  · have hmin := candList_head_min h0 p (mem_candList.mpr hp)
    have hlt : p0 < p := by omega
    have h2 := (cand_value_lt htot hn hp0c hp hlt).2
    have hpn := (candB_eq_true_iff.mp hp).2.1
    have hp0n := (candB_eq_true_iff.mp hp0c).2.1
    exact htrans _ (arrv_mem d (by omega)) _ (arrv_mem d (by omega))
      _ (arrv_mem d (by omega)) hle h2

/-! ## The step equations: each stage of `next` maps the candidate list of
`n` arrivals to the candidate list of `n + 1` arrivals -/

theorem dropFront?_eq_filter {α : Type} (le : α → α → Bool) (v : α) :
    ∀ l : List (BufferElement α),
      l.Pairwise (fun a b => le b.value v = true → le a.value v = true) →
      (∃ b, l.getLast? = some b ∧ le b.value v = false) →
      dropFront? le v l = some (l.filter fun e => !(le e.value v)) := by
  intro l
  induction l with
  | nil => rintro _ ⟨b, hb, _⟩; simp at hb
  | cons e es ih =>
    rintro hpw ⟨b, hb, hbv⟩
    rw [List.pairwise_cons] at hpw
    by_cases hev : le e.value v = true
    · cases es with
      | nil =>
        simp at hb
        rw [hb] at hev
        rw [hev] at hbv
        simp at hbv
      | cons e2 es2 =>
        rw [List.getLast?_cons_cons] at hb
        have ihres := ih hpw.2 ⟨b, hb, hbv⟩
        rw [List.filter_cons]
        simp only [hev, Bool.not_true, Bool.false_eq_true, if_false]
        simpa [dropFront?, hev] using ihres
    · rw [Bool.not_eq_true] at hev
      have hall : ∀ x ∈ e :: es, (!(le x.value v)) = true := by
        intro x hx
        rcases List.mem_cons.mp hx with hx | hx
        · rw [hx, hev]; rfl
        · have himp := hpw.1 x hx
          cases hxl : le x.value v with
          | true => rw [himp hxl] at hev; simp at hev
          | false => rfl
      rw [List.filter_eq_self.mpr hall]
      simp [dropFront?, hev]

theorem candList_head_candB {α : Type} {le : α → α → Bool} {d : α} {vs : List α}
    {N n p0 : Nat} (h0 : (candList le d vs N n).head? = some p0) :
    candB le d vs N n p0 = true :=
  mem_candList.mp (head_mem_of_head?_eq_some h0)

theorem expire_spec {α : Type} (le : α → α → Bool) (d : α) (vs : List α)
    {N : Nat} (n : Nat) :
    expireBack (n % N) (specDeque le d vs N n) =
      ((candList le d vs N n).filter fun p => decide (n + 1 - N ≤ p)).reverse.map
        (elmOf d vs N) := by
  unfold specDeque expireBack
  cases hL : candList le d vs N n with
  | nil => simp
  | cons p0 t =>
    have h0 : (candList le d vs N n).head? = some p0 := by rw [hL]; rfl
    have hcand := candList_head_candB h0
    obtain ⟨hp01, hp02, _⟩ := candB_eq_true_iff.mp hcand
    have hmin := candList_head_min h0
    have hgl : (((p0 :: t).reverse.map (elmOf d vs N)).getLast?).map (·.index) =
        some (p0 % N) := by
      rw [List.getLast?_map, List.getLast?_reverse]
      rfl
    rcases Nat.lt_or_ge n N with hnN | hnN
    · -- window not yet full: nothing can expire, every candidate survives
      have hcond : ¬(((p0 :: t).reverse.map (elmOf d vs N)).getLast?.map (·.index) =
          some (n % N)) := by
        rw [hgl]
        intro hc
        simp at hc
        rw [Nat.mod_eq_of_lt (by omega), Nat.mod_eq_of_lt hnN] at hc
        omega
      rw [if_neg hcond]
      have hfix : (p0 :: t).filter (fun p => decide (n + 1 - N ≤ p)) = p0 :: t := by
        apply List.filter_eq_self.mpr
        intro p hp
        rw [← hL] at hp
        have := (candB_eq_true_iff.mp (mem_candList.mp hp)).1
        simp
        omega
      rw [hfix]
    · by_cases hpe : p0 = n - N
      · -- the back is the expiring slot
        have hcond : (((p0 :: t).reverse.map (elmOf d vs N)).getLast?.map (·.index) =
            some (n % N)) := by
          rw [hgl, hpe]
          have : n % N = (n - N + N) % N := by rw [Nat.sub_add_cancel hnN]
          rw [this, Nat.add_mod_right]
        rw [if_pos hcond]
        have hdrop : ((p0 :: t).reverse.map (elmOf d vs N)).dropLast =
            (t.reverse.map (elmOf d vs N)) := by
          rw [← List.map_dropLast, List.dropLast_reverse]
          rfl
        rw [hdrop]
        have hfix : (p0 :: t).filter (fun p => decide (n + 1 - N ≤ p)) = t := by
          rw [List.filter_cons]
          have hp0f : (decide (n + 1 - N ≤ p0)) = false := by
            simp
            omega
          rw [hp0f]
          simp only [Bool.false_eq_true, if_false]
          apply List.filter_eq_self.mpr
          intro p hp
          have hlt : p0 < p := by
            have hpw := candList_pairwise le d vs N n
            rw [hL, List.pairwise_cons] at hpw
            exact hpw.1 p hp
          simp
          omega
        rw [hfix]
      · -- the back is not the expiring slot; nothing expires
        have hcond : ¬(((p0 :: t).reverse.map (elmOf d vs N)).getLast?.map (·.index) =
            some (n % N)) := by
          rw [hgl]
          intro hc
          simp at hc
          exact hpe (window_expire_pos hp01 hp02 hc).2
        rw [if_neg hcond]
        have hfix : (p0 :: t).filter (fun p => decide (n + 1 - N ≤ p)) = p0 :: t := by
          apply List.filter_eq_self.mpr
          intro p hp
          rw [← hL] at hp
          have hpb := (candB_eq_true_iff.mp (mem_candList.mp hp)).1
          have hpmin := hmin p hp
          have hne : p ≠ n - N := by
            intro he
            apply hpe
            omega
          simp
          omega
        rw [hfix]

theorem candList_succ_split {α : Type} (le : α → α → Bool) (d : α) (vs : List α)
    {N : Nat} (n : Nat) (hN : 1 ≤ N) :
    candList le d vs N (n + 1) =
      (((candList le d vs N n).filter fun p => decide (n + 1 - N ≤ p)).filter
        fun p => !(le (arrv d vs p) (arrv d vs n))) ++ [n] := by
  rw [candList_succ le d vs n hN, List.filter_filter]
  congr 1
  exact (List.filter_congr fun p hp => Bool.and_comm _ _).symm

theorem insert_spec {α : Type} (le : α → α → Bool) (d : α) (vs : List α)
    {N : Nat} (n : Nat) (hN : 1 ≤ N) (hn : n < vs.length)
    (htot : ∀ a ∈ vs, ∀ b ∈ vs, le a b = true ∨ le b a = true)
    (htrans : ∀ a ∈ vs, ∀ b ∈ vs, ∀ c ∈ vs,
      le a b = true → le b c = true → le a c = true) :
    insertNew? le (n % N) (arrv d vs n)
        (((candList le d vs N n).filter fun p => decide (n + 1 - N ≤ p)).reverse.map
          (elmOf d vs N)) =
      some (specDeque le d vs N (n + 1)) := by
  have hsplit := candList_succ_split le d vs n hN
  cases hL1 : (candList le d vs N n).filter (fun p => decide (n + 1 - N ≤ p)) with
  | nil =>
    rw [hL1] at hsplit
    unfold insertNew?
    simp only [List.reverse_nil, List.map_nil, List.isEmpty_nil, if_true]
    unfold specDeque
    rw [hsplit]
    simp [elmOf]
  | cons q0 t1 =>
    have hq0L : q0 ∈ candList le d vs N n := by
      have : q0 ∈ q0 :: t1 := List.mem_cons_self q0 t1
      rw [← hL1] at this
      exact (List.mem_filter.mp this).1
    have hq0c : candB le d vs N n q0 = true := mem_candList.mp hq0L
    have hq0n : q0 < n := (candB_eq_true_iff.mp hq0c).2.1
    have hL1sub : ∀ p ∈ q0 :: t1, p ∈ candList le d vs N n := by
      intro p hp
      rw [← hL1] at hp
      exact (List.mem_filter.mp hp).1
    have hL1pw : (q0 :: t1).Pairwise (· < ·) := by
      rw [← hL1]
      exact List.Pairwise.sublist (List.filter_sublist _) (candList_pairwise le d vs N n)
    have hgl : ((q0 :: t1).reverse.map (elmOf d vs N)).getLast? =
        some (elmOf d vs N q0) := by
      rw [List.getLast?_map, List.getLast?_reverse]
      rfl
    rw [hL1] at hsplit
    unfold insertNew?
    rw [if_neg (by simp : ¬((q0 :: t1).reverse.map (elmOf d vs N)).isEmpty = true)]
    rw [hgl]
    show (if le (arrv d vs q0) (arrv d vs n) = true
        then some [⟨n % N, arrv d vs n⟩]
        else (dropFront? le (arrv d vs n) ((q0 :: t1).reverse.map (elmOf d vs N))).map
          ((⟨n % N, arrv d vs n⟩ : BufferElement α) :: ·)) =
      some (specDeque le d vs N (n + 1))
    by_cases hq0v : le (arrv d vs q0) (arrv d vs n) = true
    · -- the new arrival dominates the whole deque: it is cleared
      rw [if_pos hq0v]
      have hfe : (q0 :: t1).filter
          (fun p => !(le (arrv d vs p) (arrv d vs n))) = [] := by
        rw [List.filter_eq_nil_iff]
        intro p hp
        have hle : le (arrv d vs p) (arrv d vs n) = true := by
          rcases List.mem_cons.mp hp with he | ht
          · rw [he]; exact hq0v
          · rw [List.pairwise_cons] at hL1pw
            have hlt : q0 < p := hL1pw.1 p ht
            have hpc := mem_candList.mp (hL1sub p hp)
            have h2 := (cand_value_lt htot (Nat.le_of_lt hn) hq0c hpc hlt).2
            have hpn : p < n := (candB_eq_true_iff.mp hpc).2.1
            exact htrans _ (arrv_mem d (by omega)) _ (arrv_mem d (by omega))
              _ (arrv_mem d hn) h2 hq0v
        simp [hle]
      rw [hfe] at hsplit
      unfold specDeque
      rw [hsplit]
      simp [elmOf]
    · -- the new arrival is below the back: evict dominated fronts, push front
      rw [if_neg hq0v]
      have hq0vf : le (arrv d vs q0) (arrv d vs n) = false := by
        rcases Bool.eq_false_or_eq_true (le (arrv d vs q0) (arrv d vs n)) with h | h
        · exact absurd h hq0v
        · exact h
      have hpw2 : (q0 :: t1).Pairwise (fun p q =>
          le (arrv d vs p) (arrv d vs n) = true →
          le (arrv d vs q) (arrv d vs n) = true) := by
        apply List.Pairwise.imp_of_mem ?_ hL1pw
        intro a b ha hb hab
        intro hle
        have hac := mem_candList.mp (hL1sub a ha)
        have hbc := mem_candList.mp (hL1sub b hb)
        have h2 := (cand_value_lt htot (Nat.le_of_lt hn) hac hbc hab).2
        have han : a < n := (candB_eq_true_iff.mp hac).2.1
        have hbn : b < n := (candB_eq_true_iff.mp hbc).2.1
        exact htrans _ (arrv_mem d (by omega)) _ (arrv_mem d (by omega))
          _ (arrv_mem d hn) h2 hle
      have hpair : ((q0 :: t1).reverse.map (elmOf d vs N)).Pairwise
          (fun a b => le b.value (arrv d vs n) = true →
            le a.value (arrv d vs n) = true) := by
        rw [List.pairwise_map, List.pairwise_reverse]
        exact hpw2
      have hdf := dropFront?_eq_filter le (arrv d vs n) _ hpair
        ⟨elmOf d vs N q0, hgl, hq0vf⟩
      rw [hdf]
      simp only [Option.map_some']
      congr 1
      rw [List.filter_map, List.filter_reverse]
      unfold specDeque
      rw [hsplit, List.reverse_append]
      simp [elmOf, Function.comp]
      rfl

/-- One call to `next` on the state reached after `n` arrivals produces the
state of `n + 1` arrivals and returns the value of the minimal (back)
candidate. -/
theorem spec_step {α : Type} (le : α → α → Bool) (d : α) (vs : List α)
    {N n : Nat} (hN : 1 ≤ N) (hn : n < vs.length)
    (htot : ∀ a ∈ vs, ∀ b ∈ vs, le a b = true ∨ le b a = true)
    (htrans : ∀ a ∈ vs, ∀ b ∈ vs, ∀ c ∈ vs,
      le a b = true → le b c = true → le a c = true) :
    (specState le d vs N n).next? le (arrv d vs n) =
      some (arrv d vs ((candList le d vs N (n + 1)).headD 0),
        specState le d vs N (n + 1)) := by
  unfold MaxDetector.next?
  have e1 : (specState le d vs N n).next_index = n % N := rfl
  have e2 : (specState le d vs N n).deque = specDeque le d vs N n := rfl
  have e3 : (specState le d vs N n).buffer_size = N := rfl
  rw [e1, e2, e3, expire_spec le d vs n, insert_spec le d vs n hN hn htot htrans]
  rw [Option.some_bind]
  rw [if_neg (by omega : ¬N = 0)]
  have hne := candList_succ_ne_nil le d vs n hN
  cases hL : candList le d vs N (n + 1) with
  | nil => exact absurd hL hne
  | cons p0 t =>
    have hgl : (specDeque le d vs N (n + 1)).getLast? = some (elmOf d vs N p0) := by
      unfold specDeque
      rw [hL, List.getLast?_map, List.getLast?_reverse]
      rfl
    rw [hgl]
    show some ((elmOf d vs N p0).value,
        (⟨specDeque le d vs N (n + 1), N, (n % N + 1) % N⟩ : MaxDetector α)) = _
    have hmod : (n % N + 1) % N = (n + 1) % N := by
      rw [Nat.mod_add_mod]
    rw [hmod]
    rfl

theorem runDetector?_cons_intro {α : Type} {le : α → α → Bool}
    {s s1 s2 : MaxDetector α} {v r : α} {rest rs : List α}
    (hn : s.next? le v = some (r, s1))
    (hr : runDetector? le s1 rest = some (rs, s2)) :
    runDetector? le s (v :: rest) = some (r :: rs, s2) := by
  unfold runDetector?
  simp [hn, hr]

theorem runDetector?_snoc {α : Type} (le : α → α → Bool) :
    ∀ (l1 : List α) (s : MaxDetector α) (outs : List α) (s' : MaxDetector α)
      (v r : α) (s'' : MaxDetector α),
      runDetector? le s l1 = some (outs, s') → s'.next? le v = some (r, s'') →
      runDetector? le s (l1 ++ [v]) = some (outs ++ [r], s'') := by
  intro l1
  induction l1 with
  | nil =>
    intro s outs s' v r s'' h1 h2
    unfold runDetector? at h1
    simp at h1
    obtain ⟨ho, hs⟩ := h1
    subst ho
    subst hs
    simp only [List.nil_append]
    exact runDetector?_cons_intro h2 rfl
  | cons w t ih =>
    intro s outs s' v r s'' h1 h2
    obtain ⟨rw_, s1, rs, hn, hrest, houts⟩ := runDetector?_cons_elim h1
    subst houts
    simp only [List.cons_append]
    exact runDetector?_cons_intro hn (ih s1 rs s' v r s'' hrest h2)

/-- The tracker, run over the first `n` arrivals, computes exactly the
specified outputs and reaches exactly the specified state. -/
theorem spec_run {α : Type} (le : α → α → Bool) (d : α) (vs : List α)
    {N : Nat} (hN : 1 ≤ N)
    (htot : ∀ a ∈ vs, ∀ b ∈ vs, le a b = true ∨ le b a = true)
    (htrans : ∀ a ∈ vs, ∀ b ∈ vs, ∀ c ∈ vs,
      le a b = true → le b c = true → le a c = true) :
    ∀ n, n ≤ vs.length →
      runDetector? le (MaxDetector.new α N) (vs.take n) =
        some (specOuts le d vs N n, specState le d vs N n) := by
  intro n
  induction n with
  | zero =>
    intro _
    show runDetector? le (MaxDetector.new α N) [] = _
    unfold runDetector?
    unfold specOuts specState specDeque candList MaxDetector.new
    simp
  | succ n ih =>
    intro hn1
    have hn : n < vs.length := by omega
    have htake : vs.take (n + 1) = vs.take n ++ [arrv d vs n] := by
      rw [List.take_succ]
      congr 1
      rw [List.getElem?_eq_getElem hn]
      unfold arrv
      rw [List.getD_eq_getElem vs d hn]
      rfl
    have houts : specOuts le d vs N (n + 1) = specOuts le d vs N n ++
        [arrv d vs ((candList le d vs N (n + 1)).headD 0)] := by
      unfold specOuts
      rw [List.range_succ, List.map_append]
      rfl
    rw [htake, houts]
    exact runDetector?_snoc le (vs.take n) _ _ _ _ _ _ (ih (by omega))
      (spec_step le d vs hN hn htot htrans)

/-- Master theorem: a full run over `vs` succeeds and is described exactly
by the candidate lists. -/
theorem spec_run_full {α : Type} (le : α → α → Bool) (d : α) (vs : List α)
    {N : Nat} (hN : 1 ≤ N)
    (htot : ∀ a ∈ vs, ∀ b ∈ vs, le a b = true ∨ le b a = true)
    (htrans : ∀ a ∈ vs, ∀ b ∈ vs, ∀ c ∈ vs,
      le a b = true → le b c = true → le a c = true) :
    runDetector? le (MaxDetector.new α N) vs =
      some (specOuts le d vs N vs.length, specState le d vs N vs.length) := by
  have := spec_run le d vs hN htot htrans vs.length (Nat.le_refl _)
  rwa [List.take_length] at this

/-! ## Windows of arrivals -/


theorem getD_mem_windowAt {α : Type} (d : α) {vs : List α} {N k p : Nat}
    (hk : k < vs.length) (hp1 : k + 1 - N ≤ p) (hp2 : p < k + 1) :
    vs.getD p d ∈ windowAt vs N k := by
  have hplen : p < vs.length := by omega
  unfold windowAt
  have hj : p - (k + 1 - N) < ((vs.take (k + 1)).drop (k + 1 - N)).length := by
    rw [List.length_drop, List.length_take]
    omega
  apply List.mem_iff_getElem.mpr
  refine ⟨p - (k + 1 - N), hj, ?_⟩
  rw [List.getElem_drop, List.getElem_take]
  rw [List.getD_eq_getElem vs d hplen]
  congr 1
  omega

theorem mem_windowAt_elim {α : Type} (d : α) {vs : List α} {N k : Nat} {x : α}
    (hk : k < vs.length) (hx : x ∈ windowAt vs N k) :
    ∃ p, k + 1 - N ≤ p ∧ p < k + 1 ∧ x = vs.getD p d := by
  unfold windowAt at hx
  obtain ⟨j, hj, hval⟩ := List.mem_iff_getElem.mp hx
  have hjlen : j < (k + 1) - (k + 1 - N) := by
    rw [List.length_drop, List.length_take] at hj
    omega
  refine ⟨(k + 1 - N) + j, by omega, by omega, ?_⟩
  rw [← hval, List.getElem_drop, List.getElem_take]
  rw [List.getD_eq_getElem vs d (by omega)]

theorem mem_windowAt_sub {α : Type} {vs : List α} {N k : Nat} {x : α}
    (hx : x ∈ windowAt vs N k) : x ∈ vs :=
  List.mem_of_mem_take (List.mem_of_mem_drop hx)

theorem mem_drop_elim {α : Type} (d : α) {vs : List α} {N : Nat} {x : α}
    (hx : x ∈ vs.drop (vs.length - N)) :
    ∃ q, vs.length - N ≤ q ∧ q < vs.length ∧ x = vs.getD q d := by
  obtain ⟨j, hj, hval⟩ := List.mem_iff_getElem.mp hx
  have hjlen : j < vs.length - (vs.length - N) := by
    rw [List.length_drop] at hj
    omega
  refine ⟨(vs.length - N) + j, by omega, by omega, ?_⟩
  rw [← hval, List.getElem_drop]
  rw [List.getD_eq_getElem vs d (by omega)]

theorem getD_mem_drop {α : Type} (d : α) {vs : List α} {N p : Nat}
    (hp1 : vs.length - N ≤ p) (hp2 : p < vs.length) :
    vs.getD p d ∈ vs.drop (vs.length - N) := by
  apply List.mem_iff_getElem.mpr
  refine ⟨p - (vs.length - N), ?_, ?_⟩
  · rw [List.length_drop]
    omega
  · rw [List.getElem_drop]
    rw [List.getD_eq_getElem vs d hp2]
    congr 1
    omega

/-! ## The claims -/

/-- Claim C2: for every `buffer_size N >= 1` and every input sequence, in
every reachable tracker state the candidate deque holds at most `N`
elements; no call to `next` can grow it past `N`. -/
theorem deque_length_le_buffer {α : Type} (le : α → α → Bool) (N : Nat)
    (vs outs : List α) (s : MaxDetector α) (hN : 1 ≤ N)
    (hrun : runDetector? le (MaxDetector.new α N) vs = some (outs, s)) :
    s.deque.length ≤ N := by
  obtain ⟨hbs, hni, ps, hpw, hbnd, hmap⟩ := goodA_reachable le hN hrun
  have h1 : s.deque.length = ps.length := by
    have := congrArg List.length hmap
    simpa using this
  have h2 := decList_length_le ps (vs.length - N) vs.length hpw hbnd
  omega

/-- Witness for C2 at a concrete run. -/
theorem deque_length_le_buffer_witness :
    (⟨[⟨0, 2⟩, ⟨1, 5⟩], 4, 1⟩ : MaxDetector Nat).deque.length ≤ 4 :=
  deque_length_le_buffer leN 4 [2, 5, 1, 0, 2] [2, 5, 5, 5, 5]
    ⟨[⟨0, 2⟩, ⟨1, 5⟩], 4, 1⟩ (by decide) (by rfl)

/-- Claim C3: with a positive `buffer_size`, `next` never panics: each
internal `unwrap`/front/back access is on a non-empty deque, by the
algorithm's structure (this holds for every state and comparison, not just
reachable ones); `current` is total by construction. -/
theorem next_never_panics {α : Type} (le : α → α → Bool) (s : MaxDetector α)
    (v : α) (hbs : 1 ≤ s.buffer_size) : (s.next? le v).isSome = true :=
  next?_isSome le s v (by omega)

/-- Witness for C3 at a concrete state. -/
theorem next_never_panics_witness :
    ((MaxDetector.new Nat 4).next? leN 7).isSome = true :=
  next_never_panics leN (MaxDetector.new Nat 4) 7 (by decide)

/-- Claim C6: `current` returns the value at the back of the deque when at
least one value has been ingested, and `none` exactly when no value has
ever been ingested; a fresh tracker reports `none`. -/
theorem current_none_iff_no_arrivals {α : Type} (le : α → α → Bool) (N : Nat)
    (vs outs : List α) (s : MaxDetector α)
    (hrun : runDetector? le (MaxDetector.new α N) vs = some (outs, s)) :
    (MaxDetector.new α N).current = none ∧
    (s.current = none ↔ vs = []) ∧
    (vs ≠ [] → ∃ b, s.deque.getLast? = some b ∧ s.current = some b.value) := by
  refine ⟨rfl, ⟨?_, ?_⟩, ?_⟩
  · intro hc
    by_contra hvs
    have hne := runDetector?_deque_ne_nil hvs hrun
    unfold MaxDetector.current at hc
    cases hgl : s.deque.getLast? with
    | none => exact hne (List.getLast?_eq_none_iff.mp hgl)
    | some b => rw [hgl] at hc; simp at hc
  · intro hvs
    subst hvs
    unfold runDetector? at hrun
    simp at hrun
    rw [← hrun.2]
    rfl
  · intro hvs
    have hne := runDetector?_deque_ne_nil hvs hrun
    obtain ⟨b, hb⟩ := Option.isSome_iff_exists.mp (List.getLast?_isSome.mpr hne)
    refine ⟨b, hb, ?_⟩
    unfold MaxDetector.current
    rw [hb]
    rfl

/-- Witness for C6 at a concrete run. -/
theorem current_none_iff_no_arrivals_witness :
    (MaxDetector.new Nat 3).current = none ∧
    ((⟨[⟨1, 2⟩], 3, 2⟩ : MaxDetector Nat).current = none ↔ ([1, 2] : List Nat) = []) ∧
    (([1, 2] : List Nat) ≠ [] → ∃ b, (⟨[⟨1, 2⟩], 3, 2⟩ : MaxDetector Nat).deque.getLast? =
      some b ∧ (⟨[⟨1, 2⟩], 3, 2⟩ : MaxDetector Nat).current = some b.value) :=
  current_none_iff_no_arrivals leN 3 [1, 2] [1, 2] ⟨[⟨1, 2⟩], 3, 2⟩ (by rfl)

/-- Claim C7: in every reachable state all queued elements carry distinct
ring-buffer slots, and only the back-most element can carry the slot that
`next` is about to reuse; hence the single back-of-queue expiry check
removes every expired element. -/
theorem deque_slots_distinct {α : Type} (le : α → α → Bool) (N : Nat)
    (vs outs : List α) (s : MaxDetector α) (hN : 1 ≤ N)
    (hrun : runDetector? le (MaxDetector.new α N) vs = some (outs, s)) :
    (s.deque.map (·.index)).Nodup ∧
    ∀ i, (hi : i < s.deque.length) → (s.deque.get ⟨i, hi⟩).index = s.next_index →
      i + 1 = s.deque.length := by
  obtain ⟨hbs, hni, ps, hpw, hbnd, hmap⟩ := goodA_reachable le hN hrun
  have hlen : s.deque.length = ps.length := by
    have := congrArg List.length hmap
    simpa using this
  constructor
  · rw [hmap]
    apply List.pairwise_map.mpr
    apply List.Pairwise.imp_of_mem ?_ hpw
    intro a b ha hb hab
    have hba := hbnd a ha
    have hbb := hbnd b hb
    intro he
    have := window_mod_inj hba.1 hba.2 hbb.1 hbb.2 he
    omega
  · intro i hi hidx
    have hips : i < ps.length := by omega
    have hidx2 : ps[i] % N = vs.length % N := by
      have h1 := congrArg (fun l => l[i]?) hmap
      simp only [List.getElem?_map] at h1
      rw [List.getElem?_eq_getElem hi, List.getElem?_eq_getElem hips] at h1
      simp at h1
      rw [List.get_eq_getElem] at hidx
      rw [hidx, hni] at h1
      exact h1.symm
    have hqb := hbnd (ps[i]) (List.getElem_mem hips)
    have hexp := window_expire_pos hqb.1 hqb.2 hidx2
    by_contra hne
    have hi1 : i + 1 < ps.length := by omega
    have hlt := List.pairwise_iff_getElem.mp hpw i (i + 1) hips hi1 (by omega)
    have hb1 := hbnd (ps[i + 1]) (List.getElem_mem hi1)
    omega

/-- Witness for C7 at a concrete run. -/
theorem deque_slots_distinct_witness :
    (((⟨[⟨0, 2⟩, ⟨1, 5⟩], 4, 1⟩ : MaxDetector Nat)).deque.map (·.index)).Nodup ∧
    ∀ i, (hi : i < (⟨[⟨0, 2⟩, ⟨1, 5⟩], 4, 1⟩ : MaxDetector Nat).deque.length) →
      ((⟨[⟨0, 2⟩, ⟨1, 5⟩], 4, 1⟩ : MaxDetector Nat).deque.get ⟨i, hi⟩).index =
        (⟨[⟨0, 2⟩, ⟨1, 5⟩], 4, 1⟩ : MaxDetector Nat).next_index →
      i + 1 = (⟨[⟨0, 2⟩, ⟨1, 5⟩], 4, 1⟩ : MaxDetector Nat).deque.length :=
  deque_slots_distinct leN 4 [2, 5, 1, 0, 2] [2, 5, 5, 5, 5]
    ⟨[⟨0, 2⟩, ⟨1, 5⟩], 4, 1⟩ (by decide) (by rfl)

/-- Claim C8: with `buffer_size = 0`, `next` faults (modulo by zero) in the
slot-advancement step: the model returns `none` for every state and value. -/
theorem next_faults_on_zero_buffer {α : Type} (le : α → α → Bool)
    (s : MaxDetector α) (v : α) (hbs : s.buffer_size = 0) :
    s.next? le v = none :=
  next?_eq_none_of_bs_zero le s v hbs

/-- Witness for C8 at a concrete tracker. -/
theorem next_faults_on_zero_buffer_witness :
    (MaxDetector.new Nat 0).next? leN 7 = none :=
  next_faults_on_zero_buffer leN (MaxDetector.new Nat 0) 7 (by rfl)

/-- Counterexample to claim C9: `new` does not validate its argument.
`new(0)` succeeds, producing an ordinary tracker with `buffer_size = 0`,
and the misuse surfaces only later as a runtime fault in `next` — there is
no construction-time rejection. -/
theorem new_accepts_zero_buffer :
    MaxDetector.new Nat 0 = ⟨[], 0, 0⟩ ∧
    (MaxDetector.new Nat 0).next? leN 7 = none :=
  ⟨rfl, rfl⟩

/-- Claim C9 (amended): `new` performs no validation at all: any
`buffer_size`, including 0, is stored unchecked, and a zero window size
surfaces as a runtime fault on the first call to `next` rather than being
refused at construction. -/
theorem new_performs_no_validation {α : Type} (le : α → α → Bool)
    (buffer_size : Nat) (v : α) :
    MaxDetector.new α buffer_size = ⟨[], buffer_size, 0⟩ ∧
    (MaxDetector.new α 0).next? le v = none :=
  ⟨rfl, next?_eq_none_of_bs_zero le _ v rfl⟩

/-- Claim C10: the value returned by `next` is exactly the value that an
immediately following `current` call reports (for every state on which
`next` succeeds, reachable or not). -/
theorem next_agrees_with_current {α : Type} (le : α → α → Bool)
    (s : MaxDetector α) (v r : α) (s' : MaxDetector α)
    (h : s.next? le v = some (r, s')) : s'.current = some r :=
  next?_current_agree h

/-- Witness for C10 at a concrete step. -/
theorem next_agrees_with_current_witness :
    (⟨[⟨0, 5⟩], 4, 1⟩ : MaxDetector Nat).current = some 5 :=
  next_agrees_with_current leN (MaxDetector.new Nat 4) 5 5
    ⟨[⟨0, 5⟩], 4, 1⟩ (by rfl)

theorem specOuts_getElem {α : Type} (le : α → α → Bool) (d : α) (vs : List α)
    (N : Nat) {n k : Nat} (hk : k < n) :
    (specOuts le d vs N n)[k]? =
      some (arrv d vs ((candList le d vs N (k + 1)).headD 0)) := by
  unfold specOuts
  rw [List.getElem?_map, List.getElem?_range hk]
  rfl

theorem candList_succ_head {α : Type} (le : α → α → Bool) (d : α) (vs : List α)
    {N : Nat} (k : Nat) (hN : 1 ≤ N) :
    (candList le d vs N (k + 1)).head? =
      some ((candList le d vs N (k + 1)).headD 0) := by
  cases hL : candList le d vs N (k + 1) with
  | nil => exact absurd hL (candList_succ_ne_nil le d vs k hN)
  | cons p t => rfl

/-- Claim C1: for every `buffer_size N >= 1` and every sequence of values
on which the supplied order is total (total, transitive and antisymmetric
on the values pushed), every call to `next` succeeds and returns exactly
the maximum over the last `min (count_so_far) N` arrivals — the unique
window element that the order places above the whole window. -/
theorem next_returns_window_max {α : Type} (le : α → α → Bool) (d : α)
    (vs : List α) (N : Nat) (hN : 1 ≤ N)
    (htot : ∀ a ∈ vs, ∀ b ∈ vs, le a b = true ∨ le b a = true)
    (htrans : ∀ a ∈ vs, ∀ b ∈ vs, ∀ c ∈ vs,
      le a b = true → le b c = true → le a c = true)
    (hanti : ∀ a ∈ vs, ∀ b ∈ vs, le a b = true → le b a = true → a = b) :
    ∃ outs s, runDetector? le (MaxDetector.new α N) vs = some (outs, s) ∧
      outs.length = vs.length ∧
      ∀ k, k < vs.length → ∃ m, outs[k]? = some m ∧ m ∈ windowAt vs N k ∧
        (∀ x ∈ windowAt vs N k, le x m = true) ∧
        ∀ m', m' ∈ windowAt vs N k → (∀ x ∈ windowAt vs N k, le x m' = true) →
          m' = m := by
  refine ⟨specOuts le d vs N vs.length, specState le d vs N vs.length,
    spec_run_full le d vs hN htot htrans, by simp [specOuts], ?_⟩
  intro k hk
  have h0 := candList_succ_head le d vs k hN
  have hc := candList_head_candB h0
  obtain ⟨hb1, hb2, _⟩ := candB_eq_true_iff.mp hc
  have hk1 : k + 1 ≤ vs.length := by omega
  have hmem := getD_mem_windowAt d hk hb1 hb2
  refine ⟨arrv d vs ((candList le d vs N (k + 1)).headD 0),
    specOuts_getElem le d vs N hk, hmem, ?_, ?_⟩
  · intro x hx
    obtain ⟨q, hq1, hq2, hxq⟩ := mem_windowAt_elim d hk hx
    rw [hxq]
    exact cand_head_max htot htrans hk1 h0 q hq1 hq2
  · intro m' hm' hdom'
    have h1 : le m' (arrv d vs ((candList le d vs N (k + 1)).headD 0)) = true := by
      obtain ⟨q, hq1, hq2, hxq⟩ := mem_windowAt_elim d hk hm'
      rw [hxq]
      exact cand_head_max htot htrans hk1 h0 q hq1 hq2
    have h2 := hdom' _ hmem
    exact hanti _ (mem_windowAt_sub hm') _ (mem_windowAt_sub hmem) h1 h2

/-- Witness for C1 at a concrete run (the source's `usize` test vector). -/
theorem next_returns_window_max_witness :
    ∃ outs s, runDetector? leN (MaxDetector.new Nat 4) [2, 5, 1, 0, 2, 3, 1, 0] =
        some (outs, s) ∧
      outs.length = ([2, 5, 1, 0, 2, 3, 1, 0] : List Nat).length ∧
      ∀ k, k < ([2, 5, 1, 0, 2, 3, 1, 0] : List Nat).length →
        ∃ m, outs[k]? = some m ∧ m ∈ windowAt [2, 5, 1, 0, 2, 3, 1, 0] 4 k ∧
          (∀ x ∈ windowAt [2, 5, 1, 0, 2, 3, 1, 0] 4 k, leN x m = true) ∧
          ∀ m', m' ∈ windowAt [2, 5, 1, 0, 2, 3, 1, 0] 4 k →
            (∀ x ∈ windowAt [2, 5, 1, 0, 2, 3, 1, 0] 4 k, leN x m' = true) →
            m' = m :=
  next_returns_window_max leN 0 [2, 5, 1, 0, 2, 3, 1, 0] 4 (by decide)
    (by decide) (by decide) (by decide)

/-- Counterexample to claim C4: after pushing 5 then 3 (window 10), the
deque from front to back is [3, 5], which is *not* monotonically
non-increasing from front to back. -/
theorem deque_front_to_back_not_nonincreasing :
    runDetector? leN (MaxDetector.new Nat 10) [5, 3] =
      some ([5, 5], ⟨[⟨1, 3⟩, ⟨0, 5⟩], 10, 2⟩) ∧
    ¬ List.Pairwise (fun a b => leN b.value a.value = true)
        ([⟨1, 3⟩, ⟨0, 5⟩] : List (BufferElement Nat)) := by
  refine ⟨by rfl, ?_⟩
  intro h
  rw [List.pairwise_cons] at h
  have h5 := h.1 ⟨0, 5⟩ (by simp)
  simp [leN] at h5

/-- Claim C4 (amended): in every reachable state the deque's values are
monotonically non-increasing from *back to front* (equivalently,
non-decreasing from front to back), and the value at the back is the
current window maximum: it is one of the last `min (vs.length) N`
arrivals and the order places it above all of them. -/
theorem deque_sorted_back_max {α : Type} (le : α → α → Bool) (d : α)
    (vs outs : List α) (N : Nat) (s : MaxDetector α) (hN : 1 ≤ N)
    (htot : ∀ a ∈ vs, ∀ b ∈ vs, le a b = true ∨ le b a = true)
    (htrans : ∀ a ∈ vs, ∀ b ∈ vs, ∀ c ∈ vs,
      le a b = true → le b c = true → le a c = true)
    (hrun : runDetector? le (MaxDetector.new α N) vs = some (outs, s)) :
    s.deque.Pairwise (fun a b => le a.value b.value = true) ∧
    ∀ b, s.deque.getLast? = some b →
      b.value ∈ vs.drop (vs.length - N) ∧
      ∀ x ∈ vs.drop (vs.length - N), le x b.value = true := by
  have hfull := spec_run_full le d vs hN htot htrans
  rw [hrun] at hfull
  simp at hfull
  obtain ⟨houts, hs⟩ := hfull
  subst hs
  constructor
  · show (specDeque le d vs N vs.length).Pairwise _
    unfold specDeque
    rw [List.pairwise_map, List.pairwise_reverse]
    apply List.Pairwise.imp_of_mem ?_ (candList_pairwise le d vs N vs.length)
    intro a b ha hb hab
    exact (cand_value_lt htot (Nat.le_refl _) (mem_candList.mp ha)
      (mem_candList.mp hb) hab).2
  · intro b hb
    have hbd : (specDeque le d vs N vs.length).getLast? = some b := hb
    unfold specDeque at hbd
    rw [List.getLast?_map, List.getLast?_reverse] at hbd
    cases h0 : (candList le d vs N vs.length).head? with
    | none => rw [h0] at hbd; simp at hbd
    | some p0 =>
      rw [h0] at hbd
      simp at hbd
      have hc := candList_head_candB h0
      obtain ⟨hc1, hc2, _⟩ := candB_eq_true_iff.mp hc
      constructor
      · rw [← hbd]
        exact getD_mem_drop d hc1 hc2
      · intro x hx
        obtain ⟨q, hq1, hq2, hxq⟩ := mem_drop_elim d hx
        rw [hxq, ← hbd]
        exact cand_head_max htot htrans (Nat.le_refl _) h0 q hq1 hq2

/-- Witness for the amended C4 at a concrete run. -/
theorem deque_sorted_back_max_witness :
    (⟨[⟨1, 3⟩, ⟨0, 5⟩], 10, 2⟩ : MaxDetector Nat).deque.Pairwise
      (fun a b => leN a.value b.value = true) ∧
    ∀ b, (⟨[⟨1, 3⟩, ⟨0, 5⟩], 10, 2⟩ : MaxDetector Nat).deque.getLast? = some b →
      b.value ∈ ([5, 3] : List Nat).drop (([5, 3] : List Nat).length - 10) ∧
      ∀ x ∈ ([5, 3] : List Nat).drop (([5, 3] : List Nat).length - 10),
        leN x b.value = true :=
  deque_sorted_back_max leN 0 [5, 3] [5, 5] 10 ⟨[⟨1, 3⟩, ⟨0, 5⟩], 10, 2⟩
    (by decide) (by decide) (by decide) (by rfl)

/-- Claim C5: ties break toward recency.  After each call the reported
maximum is the arrival at the *latest* window position whose value the
order places above the whole window: every strictly later window arrival
compares strictly below it, so among order-equal values the newest wins. -/
theorem tie_breaks_toward_recency {α : Type} (le : α → α → Bool) (d : α)
    (vs : List α) (N : Nat) (hN : 1 ≤ N)
    (htot : ∀ a ∈ vs, ∀ b ∈ vs, le a b = true ∨ le b a = true)
    (htrans : ∀ a ∈ vs, ∀ b ∈ vs, ∀ c ∈ vs,
      le a b = true → le b c = true → le a c = true) :
    ∃ outs s, runDetector? le (MaxDetector.new α N) vs = some (outs, s) ∧
      ∀ k, k < vs.length → ∃ p, k + 1 - N ≤ p ∧ p ≤ k ∧
        outs[k]? = some (arrv d vs p) ∧
        (∀ q, k + 1 - N ≤ q → q ≤ k → le (arrv d vs q) (arrv d vs p) = true) ∧
        (∀ q, p < q → q ≤ k → le (arrv d vs p) (arrv d vs q) = false) := by
  refine ⟨specOuts le d vs N vs.length, specState le d vs N vs.length,
    spec_run_full le d vs hN htot htrans, ?_⟩
  intro k hk
  have h0 := candList_succ_head le d vs k hN
  have hc := candList_head_candB h0
  obtain ⟨hb1, hb2, hb3⟩ := candB_eq_true_iff.mp hc
  refine ⟨(candList le d vs N (k + 1)).headD 0, hb1, by omega,
    specOuts_getElem le d vs N hk, ?_, ?_⟩
  · intro q hq1 hq2
    exact cand_head_max htot htrans (by omega) h0 q hq1 (by omega)
  · intro q hq1 hq2
    exact hb3 q (by omega) hq1

/-- Witness for C5: pairs ordered by first component only (the source's
string-length order), pushing ranks 3, 1, 3 — the reported maximum is the
*newest* rank-3 element, `(3, 2)`. -/
theorem tie_breaks_toward_recency_witness :
    ∃ outs s, runDetector? leP (MaxDetector.new (Nat × Nat) 5)
        [(3, 0), (1, 1), (3, 2)] = some (outs, s) ∧
      ∀ k, k < ([(3, 0), (1, 1), (3, 2)] : List (Nat × Nat)).length →
        ∃ p, k + 1 - 5 ≤ p ∧ p ≤ k ∧
          outs[k]? = some (arrv (0, 0) [(3, 0), (1, 1), (3, 2)] p) ∧
          (∀ q, k + 1 - 5 ≤ q → q ≤ k →
            leP (arrv (0, 0) [(3, 0), (1, 1), (3, 2)] q)
              (arrv (0, 0) [(3, 0), (1, 1), (3, 2)] p) = true) ∧
          (∀ q, p < q → q ≤ k →
            leP (arrv (0, 0) [(3, 0), (1, 1), (3, 2)] p)
              (arrv (0, 0) [(3, 0), (1, 1), (3, 2)] q) = false) :=
  tie_breaks_toward_recency leP (0, 0) [(3, 0), (1, 1), (3, 2)] 5 (by decide)
    (by decide) (by decide)
